import Mathlib

/-!
# Verification of the `find_winners` poker-hand evaluator

Shallow embedding of `src/find_winners/core.py`.

Modelling conventions:
* Python `Card` objects have reference identity (the class defines no `__eq__`),
  and `in` / `not in` on cards therefore compares identity.  We model a card in
  play as an `ICard := Nat × Card` where the `Nat` is the card's position in the
  original hand, so structural equality of `ICard`s coincides with Python
  object identity.
* Python exceptions that the claims care about are modelled with `Option` /
  `Except` (`none` / `.error` at the point where Python would raise).  List
  index accesses that Python performs unguarded but that are unreachable for
  the inputs considered are modelled with a total pattern match whose extra
  case is documented as unreachable.
* Python's `list.sort(..., reverse=True)` / `sorted(..., reverse=True)` is a
  stable descending sort; `insertionSortB le` with `le a b = (key b ≤ key a)`
  is exactly that (an element is inserted before the first element whose key
  is not larger, so ties keep their original relative order).
* The dynamically-typed values flowing through `find_winners` (nested tuples,
  lists and ints, compared with Python `==` and `<`) are modelled by the
  `PyV` type, so that the comparison of a key with a (key, index) pair that
  the source performs is expressible exactly as Python executes it.
-/

namespace FindWinners

/-- The possible suits (`SUITS = 'CDHS'`). -/
def SUITS : List Char := ['C', 'D', 'H', 'S']

/-- The possible values (`VALUES = '23456789TJQKA'`). -/
def VALUES : List Char := ['2', '3', '4', '5', '6', '7', '8', '9', 'T', 'J', 'Q', 'K', 'A']

/-- The possible ranks in Poker, sorted from highest to lowest (`RANKS`). -/
def RANKS : List String :=
  ["royal_flush", "straight_flush", "four_of_a_kind", "full_house", "flush",
   "straight", "three_of_a_kind", "two_pairs", "pair", "high_card"]

/-- A card: a pair of value and suit characters (class `Card`). -/
structure Card where
  value : Char
  suit : Char
deriving DecidableEq, Repr

/-- The ways `Card.__init__` can fail: an `IndexError` from `code[0]` /
`code[1]` when the code has fewer than two characters, or a `ValueError`
from the domain validation of the value or the suit character. -/
inductive CardError where
  | indexError : CardError
  | invalidValue : Char → CardError
  | invalidSuit : Char → CardError
deriving DecidableEq, Repr

/-- `Card.__init__(code)`: reads `code[0]` and `code[1]` (raising `IndexError`
if the code is shorter than two characters, before any validation), then
checks the value character against `VALUES` and the suit character against
`SUITS` (in that order).  Characters beyond the first two are ignored. -/
def mkCard : List Char → Except CardError Card
  | c0 :: c1 :: _ =>
      if c0 ∈ VALUES then
        if c1 ∈ SUITS then .ok ⟨c0, c1⟩
        else .error (.invalidSuit c1)
      else .error (.invalidValue c0)
  | _ => .error .indexError

/-- `Card.__repr__`: the two-character code of the card. -/
def card_repr (c : Card) : List Char := [c.value, c.suit]

/-- Python `str.find`: index of the character in the string, `-1` if absent. -/
def findChar (s : List Char) (c : Char) : Int :=
  if c ∈ s then (s.indexOf c : Int) else -1

/-- `Card.sort_key`: `VALUES.find(self.value)`. -/
def sort_key (c : Card) : Int := findChar VALUES c.value

/-- A card in play: its position in the original hand paired with the card.
The position models Python object identity (see the module comment). -/
abbrev ICard := Nat × Card

/-- Tags each card of a hand with its position, modelling the distinct
`Card` objects Python builds for a hand. -/
def tagHand (h : List Card) : List ICard := h.enum

/-- Insert `x` before the first element `y` with `le x y` (helper for the
stable sort used to model Python's `sorted` / `list.sort`). -/
def orderedInsertB (le : α → α → Bool) (x : α) : List α → List α
  | [] => [x]
  | y :: ys => if le x y then x :: y :: ys else y :: orderedInsertB le x ys

/-- Stable insertion sort: with `le a b = (key b ≤ key a)` this is exactly
Python's stable descending sort. -/
def insertionSortB (le : α → α → Bool) : List α → List α
  | [] => []
  | x :: xs => orderedInsertB le x (insertionSortB le xs)

/-- `arrange_by_suit(card_set)`: dictionary from suit to the cards of that
suit, in input order; iteration order of the dictionary is `SUITS` order. -/
def arrange_by_suit (cards : List ICard) : List (Char × List ICard) :=
  SUITS.map (fun s => (s, cards.filter (fun c => c.2.suit == s)))

/-- `arrange_by_value(card_set)`: dictionary from value to the cards of that
value, in input order; iteration order of the dictionary is `VALUES` order. -/
def arrange_by_value (cards : List ICard) : List (Char × List ICard) :=
  VALUES.map (fun v => (v, cards.filter (fun c => c.2.value == v)))

/-- Dictionary lookup `by_value[v]` / `by_suit[s]`.  The dictionaries built
above always contain every key that is looked up, so the `getD []` default
is never taken by the source. -/
def lookupList (m : List (Char × List ICard)) (v : Char) : List ICard :=
  (List.lookup v m).getD []

/-- `sort_by_value(card_set)`: stable sort, highest card first. -/
def sort_by_value (cards : List ICard) : List ICard :=
  insertionSortB (fun a b => decide (sort_key b.2 ≤ sort_key a.2)) cards

/-- Descending comparison key used by `group_by_same_value`:
`key=lambda item: (len(item[1]), item[0])` — NOTE: the second component is
the raw value character, compared by code point exactly as Python compares
single-character strings. -/
def itemKeyLe (p q : Nat × Char) : Bool :=
  decide (p.1 < q.1) || (p.1 == q.1 && decide (p.2 ≤ q.2))

/-- `group_by_same_value(by_value)`: the items of the value dictionary sorted
descending by `(len(lst), value_char)`, keeping only the non-empty card
lists. -/
def group_by_same_value (by_value : List (Char × List ICard)) : List (List ICard) :=
  let items := insertionSortB
    (fun a b => itemKeyLe (b.2.length, b.1) (a.2.length, a.1)) by_value
  (items.filter (fun p => p.2.length != 0)).map Prod.snd

/-- `all_same_suit(card_set)`.  Python reads `card_set[0]` and would raise on
an empty list; the only caller passes the 5 cards of a straight, so the
empty case is unreachable. -/
def all_same_suit : List ICard → Bool
  | [] => true
  | c :: rest => rest.all (fun d => d.2.suit == c.2.suit)

/-- The scan string of `extract_straight`: `sequential = 'AQKJT98765432A'`.
(Sic: the source has `Q` and `K` in this order.) -/
def sequential : List Char :=
  ['A', 'Q', 'K', 'J', 'T', '9', '8', '7', '6', '5', '4', '3', '2', 'A']

/-- `sequences = [sequential[i:i+5] for i in range(len(sequential) - 4)]`. -/
def sequences : List (List Char) :=
  (List.range 10).map (fun i => (sequential.drop i).take 5)

/-- The window loop of `extract_straight`: succeed on the first window all of
whose values are present, selecting `by_value[v][0]` for each value of the
window.  Under the `all` guard every `head?` is `some`, so the `filterMap`
is exactly Python's list comprehension. -/
def straightGo (m : List (Char × List ICard)) : List (List Char) → Option (List ICard)
  | [] => none
  | seq :: rest =>
      if seq.all (fun v => !(lookupList m v).isEmpty) then
        some (seq.filterMap (fun v => (lookupList m v).head?))
      else straightGo m rest

/-- `HandEvaluator.extract_straight`. -/
def extract_straight (by_value : List (Char × List ICard)) : Option (List ICard) :=
  straightGo by_value sequences

/-- `HandEvaluator.extract_straight_flush`: a straight whose 5 cards share a
suit. -/
def extract_straight_flush (by_value : List (Char × List ICard)) : Option (List ICard) :=
  match extract_straight by_value with
  | some cs => if all_same_suit cs then some cs else none
  | none => none

/-- `self.cards[-1].value == 'T'` (the list always has 5 cards when this is
evaluated, so `getLast?` is always `some`). -/
def lastValueIsT (cs : List ICard) : Bool :=
  match cs.getLast? with
  | some c => c.2.value == 'T'
  | none => false

/-- `HandEvaluator.extract_royal_flush`: a straight flush whose last selected
card is the Ten. -/
def extract_royal_flush (by_value : List (Char × List ICard)) : Option (List ICard) :=
  match extract_straight_flush by_value with
  | some cs => if lastValueIsT cs then some cs else none
  | none => none

/-- Python equality between a `Card` instance and an `int`
(`self.groups[0][0] != n`): `Card` defines no `__eq__`, so `==` falls back
to identity, and a `Card` object is never the same object as an `int`.
The comparison is therefore always `False`. -/
def cardEqInt (_ : ICard) (_ : Nat) : Bool := false

/-- `HandEvaluator.extract_n_of_a_kind(n)`.  The source tests
`self.groups[0][0] != n`, comparing the first *card* of the largest group
with the integer `n`; by `cardEqInt` that test always fails, so the
extractor always returns `False`.  The success path
(`self.cards = self.groups[0][1]; self.complete_hand()`) is dead code (and
would raise `AttributeError`, since `groups[0][1]` is a single card).
The `groups = []` case (empty hand) would raise `IndexError` in Python. -/
def extract_n_of_a_kind (groups : List (List ICard)) (n : Nat) : Option (List ICard) :=
  match groups with
  | (c :: _) :: _ => if cardEqInt c n then none else none
  | _ => none

/-- `HandEvaluator.extract_four_of_a_kind`. -/
def extract_four_of_a_kind (groups : List (List ICard)) : Option (List ICard) :=
  extract_n_of_a_kind groups 4

/-- `HandEvaluator.extract_three_of_a_kind`. -/
def extract_three_of_a_kind (groups : List (List ICard)) : Option (List ICard) :=
  extract_n_of_a_kind groups 3

/-- `HandEvaluator.extract_pair`. -/
def extract_pair (groups : List (List ICard)) : Option (List ICard) :=
  extract_n_of_a_kind groups 2

/-- `HandEvaluator.extract_full_house`:
`len(groups[0]) == 3 and len(groups[1]) >= 2`, selecting the first group
plus the first two cards of the second.  Python reads `groups[0]`
unconditionally (raising `IndexError` on an empty hand) and reads
`groups[1]` only when the first test passes (raising `IndexError` when the
whole hand is exactly 3 cards of one value); both raise cases are modelled
by the catch-all `none`. -/
def extract_full_house (groups : List (List ICard)) : Option (List ICard) :=
  match groups with
  | g0 :: g1 :: _ =>
      if g0.length == 3 && decide (2 ≤ g1.length) then some (g0 ++ g1.take 2)
      else none
  | _ => none

/-- `x[0].sort_key()` for a suit group (the groups that reach this have 5
cards, so the empty case is unreachable). -/
def headKey (l : List ICard) : Int :=
  match l with
  | [] => 0
  | c :: _ => sort_key c.2

/-- `HandEvaluator.extract_flush`: the suit groups with *exactly* 5 cards,
sorted descending by the key of their first (highest) card; the first such
group is selected.  (Python returns `False` before sorting when the list is
empty; sorting the empty list and matching on it is the same function.) -/
def extract_flush (by_suit : List (Char × List ICard)) : Option (List ICard) :=
  let flush := (by_suit.map Prod.snd).filter (fun l => l.length == 5)
  match insertionSortB (fun a b => decide (headKey b ≤ headKey a)) flush with
  | [] => none
  | l :: _ => some l

/-- The loop of `HandEvaluator.complete_hand`: walk the value-sorted hand,
append each card not already selected, and stop as soon as the selection
reaches 5 cards (the length test happens *after* the append, as in the
source). -/
def completeAux : List ICard → List ICard → List ICard
  | acc, [] => acc
  | acc, c :: rest =>
      if c ∈ acc then completeAux acc rest
      else if (acc ++ [c]).length == 5 then acc ++ [c]
      else completeAux (acc ++ [c]) rest

/-- `HandEvaluator.complete_hand`. -/
def complete_hand (cards sorted_by_value : List ICard) : List ICard :=
  completeAux cards sorted_by_value

/-- `HandEvaluator.extract_two_pairs`:
`len(groups[0]) == 2 and len(groups[1]) == 2`, selecting both pairs and
completing to 5 cards.  As in `extract_full_house`, the unguarded
`groups[0]` / short-circuited `groups[1]` accesses that would raise in
Python are modelled by the catch-all `none`. -/
def extract_two_pairs (groups : List (List ICard)) (sorted_by_value : List ICard) :
    Option (List ICard) :=
  match groups with
  | g0 :: g1 :: _ =>
      if g0.length == 2 && g1.length == 2 then
        some (complete_hand (g0 ++ g1) sorted_by_value)
      else none
  | _ => none

/-- `HandEvaluator.extract_high_card`: the 5 highest-value cards. -/
def extract_high_card (sorted_by_value : List ICard) : Option (List ICard) :=
  some (sorted_by_value.take 5)

/-- The rank loop of `HandEvaluator.evaluate`: return the first rank whose
extractor succeeds. -/
def firstSuccess : List (String × Option (List ICard)) → Option (String × List ICard)
  | [] => none
  | (name, some cs) :: _ => some (name, cs)
  | (_, none) :: rest => firstSuccess rest

/-- `HandEvaluator.evaluate` (together with `HandEvaluator.__init__`, which
builds the arranged views): try the extractors in `RANKS` order and return
the first success; `none` models the `return None` fall-through (which the
source notes is unreachable because `extract_high_card` always succeeds). -/
def evaluate (hand : List ICard) : Option (String × List ICard) :=
  let sorted_by_value := sort_by_value hand
  let by_suit := arrange_by_suit sorted_by_value
  let by_value := arrange_by_value hand
  let groups := group_by_same_value by_value
  firstSuccess
    [("royal_flush", extract_royal_flush by_value),
     ("straight_flush", extract_straight_flush by_value),
     ("four_of_a_kind", extract_four_of_a_kind groups),
     ("full_house", extract_full_house groups),
     ("flush", extract_flush by_suit),
     ("straight", extract_straight by_value),
     ("three_of_a_kind", extract_three_of_a_kind groups),
     ("two_pairs", extract_two_pairs groups sorted_by_value),
     ("pair", extract_pair groups),
     ("high_card", extract_high_card sorted_by_value)]

/-- `hand_key(hand)`: `(len(RANKS) - RANKS.index(rank), [sort_key(c) for c in cards])`.
The `none` branch is unreachable (`evaluate` always succeeds via
`extract_high_card`); Python would raise there unpacking `None`. -/
def hand_key (hand : List Card) : Int × List Int :=
  match evaluate (tagHand hand) with
  | some (rank, cards) =>
      ((RANKS.length : Int) - (RANKS.indexOf rank : Int),
       cards.map (fun c => sort_key c.2))
  | none => (0, [])

/-- Python values flowing through `find_winners`: ints, tuples, lists. -/
inductive PyV where
  | int : Int → PyV
  | tup : List PyV → PyV
  | list : List PyV → PyV

mutual
/-- Python `==` on the values of `find_winners`: structural within a type,
`False` across types (`(1, 2) == [1, 2]` is `False` in Python, and an int
never equals a tuple). -/
def pyEq : PyV → PyV → Bool
  | .int a, .int b => a == b
  | .tup xs, .tup ys => pySeqEq xs ys
  | .list xs, .list ys => pySeqEq xs ys
  | _, _ => false

def pySeqEq : List PyV → List PyV → Bool
  | [], [] => true
  | x :: xs, y :: ys => pyEq x y && pySeqEq xs ys
  | _, _ => false
end

mutual
/-- Python `<` on the values of `find_winners`: lexicographic on tuples and
lists.  Cross-type comparison raises `TypeError` in Python and never occurs
in the source's sort (all keys have the same shape); it is mapped to
`false`. -/
def pyLt : PyV → PyV → Bool
  | .int a, .int b => decide (a < b)
  | .tup xs, .tup ys => pySeqLt xs ys
  | .list xs, .list ys => pySeqLt xs ys
  | _, _ => false

def pySeqLt : List PyV → List PyV → Bool
  | [], [] => false
  | [], _ :: _ => true
  | _ :: _, [] => false
  | x :: xs, y :: ys => if pyEq x y then pySeqLt xs ys else pyLt x y
end

mutual
/-- Python `<=` on the values of `find_winners` (same conventions as `pyLt`). -/
def pyLe : PyV → PyV → Bool
  | .int a, .int b => decide (a ≤ b)
  | .tup xs, .tup ys => pySeqLe xs ys
  | .list xs, .list ys => pySeqLe xs ys
  | _, _ => false

def pySeqLe : List PyV → List PyV → Bool
  | [], _ => true
  | _ :: _, [] => false
  | x :: xs, y :: ys => if pyEq x y then pySeqLe xs ys else pyLt x y
end

/-- The key returned by `hand_key`, as the Python value
`(rank, [card keys])`. -/
def pyOfKey (k : Int × List Int) : PyV :=
  .tup [.int k.1, .list (k.2.map PyV.int)]

/-- Subscript `[1]` on a `(key, idx)` tuple (the elements of `hands_ranks`
always have this shape). -/
def pairIdx : PyV → Int
  | .tup [_, .int i] => i
  | _ => 0

/-- Subscript `[0]` on a `(key, idx)` tuple. -/
def pairKey : PyV → PyV
  | .tup [k, _] => k
  | v => v

/-- The collection loop of `find_winners`: `for key, idx in hands_ranks[1:]:
if key == max_rank: winners.append(idx) else: break`.  NOTE: `max_rank` is
the whole `(key, idx)` pair `hands_ranks[0]`, and it is compared with the
bare `key` of each later element. -/
def winnersLoop (max_rank : PyV) : List PyV → List Int
  | [] => []
  | el :: rest =>
      if pyEq (pairKey el) max_rank then pairIdx el :: winnersLoop max_rank rest
      else []

/-- `find_winners(hands)`: rank every hand, sort `(key, idx)` pairs
descending, and collect the leading indices whose key equals `max_rank`.
`none` models the `IndexError` that `hands_ranks[0]` raises on an empty
input. -/
def find_winners (hands : List (List Card)) : Option (List Int) :=
  let hands_ranks := hands.enum.map
    (fun p => PyV.tup [pyOfKey (hand_key p.2), .int (p.1 : Int)])
  match insertionSortB (fun a b => pyLe b a) hands_ranks with
  | [] => none
  | first :: rest => some (pairIdx first :: winnersLoop first rest)

/-- The well-formedness of a selection: exactly 5 cards, no card of the hand
used twice (identity-wise), every card drawn from the hand. -/
def GoodPick (hand cs : List ICard) : Prop :=
  cs.length = 5 ∧ cs.Nodup ∧ ∀ x ∈ cs, x ∈ hand

/-!
## Infrastructure lemmas
-/

theorem orderedInsertB_perm (le : α → α → Bool) (x : α) (l : List α) :
    (orderedInsertB le x l).Perm (x :: l) := by
  induction l with
  | nil => rfl
  | cons y ys ih =>
    rw [orderedInsertB]
    split
    · exact .refl _
    · exact (ih.cons y).trans (List.Perm.swap x y ys)

theorem insertionSortB_perm (le : α → α → Bool) (l : List α) :
    (insertionSortB le l).Perm l := by
  induction l with
  | nil => exact .refl _
  | cons x xs ih =>
    rw [insertionSortB]
    exact (orderedInsertB_perm le x _).trans (ih.cons x)

theorem tagHand_nodup (h : List Card) : (tagHand h).Nodup :=
  List.Nodup.of_map Prod.fst (List.nodup_enum_map_fst h)

theorem tagHand_length (h : List Card) : (tagHand h).length = h.length :=
  List.enum_length

theorem sort_by_value_perm (cards : List ICard) : (sort_by_value cards).Perm cards :=
  insertionSortB_perm _ _

theorem arrange_by_value_prop (cards : List ICard) :
    ∀ p ∈ arrange_by_value cards, ∀ c ∈ p.2, c ∈ cards ∧ c.2.value = p.1 := by
  intro p hp c hc
  obtain ⟨v, _, rfl⟩ := List.mem_map.mp hp
  have h2 := List.mem_filter.mp hc
  exact ⟨h2.1, by simpa using h2.2⟩

theorem arrange_by_suit_snd (cards : List ICard) {l : List ICard}
    (hl : l ∈ (arrange_by_suit cards).map Prod.snd) :
    ∃ s, l = cards.filter (fun c => c.2.suit == s) := by
  obtain ⟨p, hp, rfl⟩ := List.mem_map.mp hl
  obtain ⟨s, _, rfl⟩ := List.mem_map.mp hp
  exact ⟨s, rfl⟩

theorem mem_lookupList (Q : Char → ICard → Prop) :
    ∀ (m : List (Char × List ICard)), (∀ p ∈ m, ∀ c ∈ p.2, Q p.1 c) →
    ∀ {v : Char} {c : ICard}, c ∈ lookupList m v → Q v c := by
  intro m
  induction m with
  | nil => intro _ v c hc; simp [lookupList, List.lookup] at hc
  | cons p rest ih =>
    intro hm v c hc
    obtain ⟨u, l⟩ := p
    by_cases h : v = u
    · subst h
      simp only [lookupList, List.lookup, beq_self_eq_true, Option.getD_some] at hc
      exact hm (v, l) (by simp) c hc
    · have hb : (v == u) = false := by simpa using h
      simp only [lookupList, List.lookup, hb] at hc
      exact ih (fun q hq => hm q (List.mem_cons_of_mem _ hq)) hc

/-!
### Straight extraction
-/

theorem straightGo_eq {m : List (Char × List ICard)} :
    ∀ {ss : List (List Char)} {cs : List ICard}, straightGo m ss = some cs →
      ∃ seq ∈ ss, (∀ v ∈ seq, lookupList m v ≠ []) ∧
        cs = seq.filterMap (fun v => (lookupList m v).head?) := by
  intro ss
  induction ss with
  | nil => intro cs h; simp [straightGo] at h
  | cons seq rest ih =>
    intro cs h
    rw [straightGo] at h
    split at h
    · rename_i hall
      refine ⟨seq, by simp, ?_, by injection h with h; exact h.symm⟩
      intro v hv
      have := List.all_eq_true.mp hall v hv
      simp only [Bool.not_eq_true'] at this
      intro hnil
      rw [hnil] at this
      simp at this
    · obtain ⟨s, hs, h1, h2⟩ := ih h
      exact ⟨s, List.mem_cons_of_mem _ hs, h1, h2⟩

theorem filterMap_heads {hand : List ICard} {seq : List Char}
    (hall : ∀ v ∈ seq, lookupList (arrange_by_value hand) v ≠ []) :
    (seq.filterMap (fun v => (lookupList (arrange_by_value hand) v).head?)).map
        (fun c => c.2.value) = seq ∧
    ∀ c ∈ seq.filterMap (fun v => (lookupList (arrange_by_value hand) v).head?),
      c ∈ hand := by
  induction seq with
  | nil => simp
  | cons v vs ih =>
    have hne := hall v (by simp)
    obtain ⟨c0, hc0⟩ : ∃ c0, (lookupList (arrange_by_value hand) v).head? = some c0 := by
      cases hL : lookupList (arrange_by_value hand) v with
      | nil => exact absurd hL hne
      | cons a l => exact ⟨a, rfl⟩
    have hc0mem : c0 ∈ lookupList (arrange_by_value hand) v :=
      List.mem_of_mem_head? (by rw [hc0]; simp)
    have hprop : c0 ∈ hand ∧ c0.2.value = v :=
      mem_lookupList (fun u c => c ∈ hand ∧ c.2.value = u) (arrange_by_value hand)
        (arrange_by_value_prop hand) hc0mem
    obtain ⟨ihmap, ihmem⟩ := ih (fun u hu => hall u (by simp [hu]))
    constructor
    · simp only [List.filterMap_cons, hc0, List.map_cons, ihmap, hprop.2]
    · intro c hc
      simp only [List.filterMap_cons, hc0, List.mem_cons] at hc
      rcases hc with rfl | hc
      · exact hprop.1
      · exact ihmem c hc

theorem straight_spec (hand : List ICard) {cs : List ICard}
    (h : extract_straight (arrange_by_value hand) = some cs) : GoodPick hand cs := by
  obtain ⟨seq, hseq, hall, rfl⟩ := straightGo_eq h
  have h5 : seq.length = 5 ∧ seq.Nodup := by
    have hconc : ∀ s ∈ sequences, s.length = 5 ∧ s.Nodup := by decide
    exact hconc seq hseq
  obtain ⟨hmap, hmem⟩ := filterMap_heads hall
  refine ⟨?_, ?_, hmem⟩
  · calc (seq.filterMap (fun v => (lookupList (arrange_by_value hand) v).head?)).length
        = ((seq.filterMap (fun v => (lookupList (arrange_by_value hand) v).head?)).map
            (fun c => c.2.value)).length := (List.length_map _ _).symm
      _ = seq.length := by rw [hmap]
      _ = 5 := h5.1
  · exact List.Nodup.of_map _ (by rw [hmap]; exact h5.2)

theorem straight_flush_spec (hand : List ICard) {cs : List ICard}
    (h : extract_straight_flush (arrange_by_value hand) = some cs) : GoodPick hand cs := by
  rw [extract_straight_flush] at h
  split at h
  · split at h
    · rename_i cs' hcs' _
      injection h with h
      subst h
      exact straight_spec hand hcs'
    · exact absurd h (by simp)
  · exact absurd h (by simp)

theorem royal_flush_spec (hand : List ICard) {cs : List ICard}
    (h : extract_royal_flush (arrange_by_value hand) = some cs) : GoodPick hand cs := by
  rw [extract_royal_flush] at h
  split at h
  · split at h
    · rename_i cs' hcs' _
      injection h with h
      subst h
      exact straight_flush_spec hand hcs'
    · exact absurd h (by simp)
  · exact absurd h (by simp)

/-!
### Cluster-based extraction
-/

theorem n_of_a_kind_none (groups : List (List ICard)) (n : Nat) :
    extract_n_of_a_kind groups n = none := by
  match groups with
  | [] => rfl
  | [] :: _ => rfl
  | (c :: _) :: _ => rfl

theorem groups_entry_core (hand : List ICard) (hnd : hand.Nodup)
    (items : List (Char × List ICard)) (hperm : items.Perm (arrange_by_value hand)) :
    ∀ g ∈ (items.filter (fun p => p.2.length != 0)).map Prod.snd,
      g.Nodup ∧ (∀ c ∈ g, c ∈ hand) ∧ ∃ v, ∀ c ∈ g, c.2.value = v := by
  intro g hg
  obtain ⟨p, hp, rfl⟩ := List.mem_map.mp hg
  have hp2 : p ∈ arrange_by_value hand := hperm.mem_iff.mp (List.mem_filter.mp hp).1
  obtain ⟨v, _, rfl⟩ := List.mem_map.mp hp2
  refine ⟨hnd.filter _, ?_, v, ?_⟩
  · intro c hc
    exact (List.mem_filter.mp hc).1
  · intro c hc
    have := (List.mem_filter.mp hc).2
    simpa using this

theorem groups_entry (hand : List ICard) (hnd : hand.Nodup) :
    ∀ g ∈ group_by_same_value (arrange_by_value hand),
      g.Nodup ∧ (∀ c ∈ g, c ∈ hand) ∧ ∃ v, ∀ c ∈ g, c.2.value = v :=
  groups_entry_core hand hnd _ (insertionSortB_perm _ _)

theorem groups_pairwise_core (hand : List ICard)
    (items : List (Char × List ICard)) (hperm : items.Perm (arrange_by_value hand)) :
    List.Pairwise (fun g1 g2 => ∀ c1 ∈ g1, ∀ c2 ∈ g2, c1.2.value ≠ c2.2.value)
      ((items.filter (fun p => p.2.length != 0)).map Prod.snd) := by
  have hkeys : (arrange_by_value hand).map Prod.fst = VALUES := by
    simp only [arrange_by_value, List.map_map]
    rfl
  have hnd0 : ((arrange_by_value hand).map Prod.fst).Nodup := by
    rw [hkeys]; decide
  have hnd1 : (items.map Prod.fst).Nodup := ((hperm.map Prod.fst).nodup_iff).mpr hnd0
  have hnd2 : ((items.filter (fun p => p.2.length != 0)).map Prod.fst).Nodup :=
    List.Nodup.sublist ((List.filter_sublist items).map Prod.fst) hnd1
  have hpw : List.Pairwise (fun a b : Char × List ICard => a.1 ≠ b.1)
      (items.filter (fun p => p.2.length != 0)) := List.pairwise_map.mp hnd2
  have hhom : ∀ p ∈ items.filter (fun p => p.2.length != 0), ∀ c ∈ p.2, c.2.value = p.1 := by
    intro p hp c hc
    have hp2 : p ∈ arrange_by_value hand := hperm.mem_iff.mp (List.mem_filter.mp hp).1
    exact (arrange_by_value_prop hand p hp2 c hc).2
  rw [List.pairwise_map]
  refine hpw.imp_of_mem ?_
  intro a b ha hb hne c1 hc1 c2 hc2
  rw [hhom a ha c1 hc1, hhom b hb c2 hc2]
  exact hne

theorem groups_pairwise (hand : List ICard) :
    List.Pairwise (fun g1 g2 => ∀ c1 ∈ g1, ∀ c2 ∈ g2, c1.2.value ≠ c2.2.value)
      (group_by_same_value (arrange_by_value hand)) :=
  groups_pairwise_core hand _ (insertionSortB_perm _ _)

theorem full_house_spec (hand : List ICard) (hnd : hand.Nodup) {cs : List ICard}
    (h : extract_full_house (group_by_same_value (arrange_by_value hand)) = some cs) :
    GoodPick hand cs := by
  rw [extract_full_house.eq_def] at h
  split at h
  · rename_i g0 g1 rest heq
    split at h
    · rename_i hcond
      injection h with h
      subst h
      simp only [Bool.and_eq_true, beq_iff_eq, decide_eq_true_eq] at hcond
      have hent := groups_entry hand hnd
      have h0 : g0 ∈ group_by_same_value (arrange_by_value hand) := by rw [heq]; simp
      have h1 : g1 ∈ group_by_same_value (arrange_by_value hand) := by rw [heq]; simp
      have hpw := groups_pairwise hand
      rw [heq] at hpw
      have hne : ∀ c1 ∈ g0, ∀ c2 ∈ g1, c1.2.value ≠ c2.2.value :=
        (List.pairwise_cons.mp hpw).1 g1 (by simp)
      obtain ⟨h0nd, h0mem, _⟩ := hent g0 h0
      obtain ⟨h1nd, h1mem, _⟩ := hent g1 h1
      refine ⟨?_, ?_, ?_⟩
      · rw [List.length_append, List.length_take, hcond.1]
        omega
      · rw [List.nodup_append]
        refine ⟨h0nd, List.Nodup.sublist (List.take_sublist _ _) h1nd, ?_⟩
        intro a ha ha2
        exact absurd rfl (hne a ha a (List.take_subset _ _ ha2))
      · intro x hx
        rcases List.mem_append.mp hx with hx | hx
        · exact h0mem x hx
        · exact h1mem x (List.take_subset _ _ hx)
    · exact absurd h (by simp)
  · exact absurd h (by simp)

/-!
### Hand completion
-/

theorem completeAux_mem :
    ∀ (l acc : List ICard) (x : ICard), x ∈ completeAux acc l → x ∈ acc ∨ x ∈ l := by
  intro l
  induction l with
  | nil => intro acc x hx; exact .inl hx
  | cons c rest ih =>
    intro acc x hx
    rw [completeAux] at hx
    split at hx
    · rcases ih acc x hx with h | h
      · exact .inl h
      · exact .inr (List.mem_cons_of_mem _ h)
    · split at hx
      · rcases List.mem_append.mp hx with h | h
        · exact .inl h
        · exact .inr (by rw [List.mem_singleton.mp h]; exact List.mem_cons_self c rest)
      · rcases ih (acc ++ [c]) x hx with h | h
        · rcases List.mem_append.mp h with h | h
          · exact .inl h
          · exact .inr (by rw [List.mem_singleton.mp h]; exact List.mem_cons_self c rest)
        · exact .inr (List.mem_cons_of_mem _ h)

theorem completeAux_nodup :
    ∀ (l acc : List ICard), acc.Nodup → (completeAux acc l).Nodup := by
  intro l
  induction l with
  | nil => intro acc h; exact h
  | cons c rest ih =>
    intro acc h
    rw [completeAux]
    split
    · exact ih acc h
    · rename_i hc
      have h2 : (acc ++ [c]).Nodup := by
        rw [List.nodup_append]
        refine ⟨h, List.nodup_singleton c, ?_⟩
        intro a ha hb
        rw [List.mem_singleton.mp hb] at ha
        exact hc ha
      split
      · exact h2
      · exact ih _ h2

theorem completeAux_length :
    ∀ (l acc : List ICard), l.Nodup → acc.length < 5 →
      5 ≤ acc.length + (l.filter (fun c => decide (c ∉ acc))).length →
      (completeAux acc l).length = 5 := by
  intro l
  induction l with
  | nil =>
    intro acc _ h1 h2
    simp only [List.filter_nil, List.length_nil] at h2
    omega
  | cons c rest ih =>
    intro acc hnd h1 h2
    obtain ⟨hcr, hndr⟩ := List.nodup_cons.mp hnd
    rw [completeAux]
    by_cases hc : c ∈ acc
    · rw [if_pos hc]
      apply ih acc hndr h1
      have hfeq : (c :: rest).filter (fun x => decide (x ∉ acc)) =
          rest.filter (fun x => decide (x ∉ acc)) := by
        simp [List.filter_cons, hc]
      rwa [hfeq] at h2
    · rw [if_neg hc]
      have hlen2 : (acc ++ [c]).length = acc.length + 1 := by simp
      by_cases h5 : (acc ++ [c]).length == 5
      · rw [if_pos h5]
        exact beq_iff_eq.mp h5
      · rw [if_neg h5]
        have hne5 : (acc ++ [c]).length ≠ 5 := by
          intro hx
          exact absurd (by simpa using hx) (by simpa using h5)
        apply ih (acc ++ [c]) hndr
        · omega
        · have hfeq : rest.filter (fun x => decide (x ∉ acc ++ [c])) =
              rest.filter (fun x => decide (x ∉ acc)) := by
            apply List.filter_congr
            intro a ha
            have hac : a ≠ c := fun hx => hcr (hx ▸ ha)
            simp [List.mem_append, hac]
          have hcount : ((c :: rest).filter (fun x => decide (x ∉ acc))).length =
              (rest.filter (fun x => decide (x ∉ acc))).length + 1 := by
            simp [List.filter_cons, hc]
          rw [hfeq, hlen2]
          omega

theorem two_pairs_spec (hand : List ICard) (hnd : hand.Nodup) (hlen : 5 ≤ hand.length)
    {cs : List ICard}
    (h : extract_two_pairs (group_by_same_value (arrange_by_value hand))
        (sort_by_value hand) = some cs) :
    GoodPick hand cs := by
  rw [extract_two_pairs.eq_def] at h
  split at h
  · rename_i g0 g1 rest heq
    split at h
    · rename_i hcond
      injection h with h
      subst h
      simp only [Bool.and_eq_true, beq_iff_eq] at hcond
      have hent := groups_entry hand hnd
      have h0 : g0 ∈ group_by_same_value (arrange_by_value hand) := by rw [heq]; simp
      have h1 : g1 ∈ group_by_same_value (arrange_by_value hand) := by rw [heq]; simp
      have hpw := groups_pairwise hand
      rw [heq] at hpw
      have hne : ∀ c1 ∈ g0, ∀ c2 ∈ g1, c1.2.value ≠ c2.2.value :=
        (List.pairwise_cons.mp hpw).1 g1 (by simp)
      obtain ⟨h0nd, h0mem, _⟩ := hent g0 h0
      obtain ⟨h1nd, h1mem, _⟩ := hent g1 h1
      have haccnd : (g0 ++ g1).Nodup := by
        rw [List.nodup_append]
        refine ⟨h0nd, h1nd, ?_⟩
        intro a ha ha2
        exact absurd rfl (hne a ha a ha2)
      have haccmem : ∀ x ∈ g0 ++ g1, x ∈ hand := by
        intro x hx
        rcases List.mem_append.mp hx with hx | hx
        · exact h0mem x hx
        · exact h1mem x hx
      have hacclen : (g0 ++ g1).length = 4 := by
        rw [List.length_append, hcond.1, hcond.2]
      have hsperm := sort_by_value_perm hand
      have hsnd : (sort_by_value hand).Nodup := hsperm.nodup_iff.mpr hnd
      refine ⟨?_, completeAux_nodup _ _ haccnd, ?_⟩
      · apply completeAux_length _ _ hsnd (by omega)
        have hfresh : 1 ≤ ((sort_by_value hand).filter
            (fun c => decide (c ∉ g0 ++ g1))).length := by
          by_contra hcon
          have hzero : ((sort_by_value hand).filter
              (fun c => decide (c ∉ g0 ++ g1))).length = 0 := by omega
          have hnil := List.length_eq_zero.mp hzero
          have hsub : sort_by_value hand ⊆ g0 ++ g1 := by
            intro a ha
            by_contra hna
            have := List.filter_eq_nil_iff.mp hnil a ha
            simp only [decide_eq_true_eq] at this
            exact this hna
          have := (List.subperm_of_subset hsnd hsub).length_le
          rw [hsperm.length_eq, hacclen] at this
          omega
        omega
      · intro x hx
        rcases completeAux_mem _ _ _ hx with hx | hx
        · exact haccmem x hx
        · exact hsperm.mem_iff.mp hx
    · exact absurd h (by simp)
  · exact absurd h (by simp)

/-!
### Flush and high card
-/

theorem flush_spec (hand : List ICard) (hnd : hand.Nodup) {cs : List ICard}
    (h : extract_flush (arrange_by_suit (sort_by_value hand)) = some cs) :
    GoodPick hand cs := by
  simp only [extract_flush] at h
  split at h
  · exact absurd h (by simp)
  · rename_i l ls heq
    injection h with h
    subst h
    have hsperm := sort_by_value_perm hand
    have hmem : l ∈ insertionSortB (fun a b => decide (headKey b ≤ headKey a))
        (((arrange_by_suit (sort_by_value hand)).map Prod.snd).filter
          (fun l => l.length == 5)) := by
      rw [heq]
      simp
    have hmemf := (insertionSortB_perm _ _).mem_iff.mp hmem
    have h2 := List.mem_filter.mp hmemf
    obtain ⟨s, rfl⟩ := arrange_by_suit_snd _ h2.1
    refine ⟨by simpa using h2.2, ?_, ?_⟩
    · exact (hsperm.nodup_iff.mpr hnd).filter _
    · intro x hx
      exact hsperm.mem_iff.mp (List.mem_filter.mp hx).1

theorem high_card_spec (hand : List ICard) (hnd : hand.Nodup) (hlen : 5 ≤ hand.length)
    {cs : List ICard} (h : extract_high_card (sort_by_value hand) = some cs) :
    GoodPick hand cs := by
  injection h with h
  subst h
  have hsperm := sort_by_value_perm hand
  refine ⟨?_, ?_, ?_⟩
  · rw [List.length_take, hsperm.length_eq]
    omega
  · exact List.Nodup.sublist (List.take_sublist _ _) (hsperm.nodup_iff.mpr hnd)
  · intro x hx
    exact hsperm.mem_iff.mp (List.take_subset _ _ hx)

/-!
### The evaluation cascade
-/

theorem firstSuccess_spec (P : List ICard → Prop) :
    ∀ l : List (String × Option (List ICard)),
      (∀ p ∈ l, ∀ cs, p.2 = some cs → P cs) →
      (∃ p ∈ l, p.2.isSome) →
      ∃ rank cs, firstSuccess l = some (rank, cs) ∧ P cs := by
  intro l
  induction l with
  | nil =>
    intro _ h2
    simp at h2
  | cons p rest ih =>
    intro h1 h2
    obtain ⟨name, res⟩ := p
    cases res with
    | some cs => exact ⟨name, cs, rfl, h1 (name, some cs) (by simp) cs rfl⟩
    | none =>
      rw [show firstSuccess ((name, none) :: rest) = firstSuccess rest from rfl]
      apply ih
      · intro q hq
        exact h1 q (List.mem_cons_of_mem _ hq)
      · rcases h2 with ⟨q, hq, hqs⟩
        rcases List.mem_cons.mp hq with rfl | hq2
        · simp at hqs
        · exact ⟨q, hq2, hqs⟩

theorem evaluate_spec (hand : List ICard) (hnd : hand.Nodup) (hlen : 5 ≤ hand.length) :
    ∃ rank cs, evaluate hand = some (rank, cs) ∧ GoodPick hand cs := by
  simp only [evaluate]
  apply firstSuccess_spec (GoodPick hand)
  · intro p hp cs hcs
    fin_cases hp <;> simp only at hcs
    · exact royal_flush_spec hand hcs
    · exact straight_flush_spec hand hcs
    · exact absurd hcs (by rw [extract_four_of_a_kind, n_of_a_kind_none]; simp)
    · exact full_house_spec hand hnd hcs
    · exact flush_spec hand hnd hcs
    · exact straight_spec hand hcs
    · exact absurd hcs (by rw [extract_three_of_a_kind, n_of_a_kind_none]; simp)
    · exact two_pairs_spec hand hnd hlen hcs
    · exact absurd hcs (by rw [extract_pair, n_of_a_kind_none]; simp)
    · exact high_card_spec hand hnd hlen hcs
  · refine ⟨("high_card", extract_high_card (sort_by_value hand)), by simp, rfl⟩

/-!
## Claim theorems
-/

/-- C9: applied to the empty sequence of hands, `find_winners` does not
return a result (the `none` models the `IndexError` that `hands_ranks[0]`
raises on the empty list). -/
theorem find_winners_empty_no_result : find_winners [] = none := by
  rfl

/-- C1 (failing input): for the two tied High Card hands of scenario 3 the
source returns only `[1]`, not `[0, 1]`: `max_rank` is the whole
`(key, idx)` pair `hands_ranks[0]`, the loop compares each later `key`
against that pair (never equal), and the descending sort puts the largest
index first among equal keys. -/
theorem find_winners_tie_returns_single_winner :
    find_winners
      [[⟨'A', 'S'⟩, ⟨'K', 'S'⟩, ⟨'Q', 'S'⟩, ⟨'J', 'D'⟩, ⟨'2', 'C'⟩, ⟨'3', 'D'⟩, ⟨'4', 'H'⟩],
       [⟨'A', 'H'⟩, ⟨'K', 'H'⟩, ⟨'Q', 'H'⟩, ⟨'J', 'D'⟩, ⟨'2', 'C'⟩, ⟨'3', 'D'⟩, ⟨'4', 'H'⟩]] =
      some [1] := by
  decide

/-- C2 (failing input): the scan string is `'AQKJT98765432A'` (`Q` and `K`
transposed), so its third window is K,J,T,9,8 — the hand
`KC JD TH 9S 8C 2D 3H`, which contains no 5 consecutive values, is
nevertheless reported as a straight. -/
theorem straight_accepts_kjt98 :
    evaluate (tagHand [⟨'K', 'C'⟩, ⟨'J', 'D'⟩, ⟨'T', 'H'⟩, ⟨'9', 'S'⟩, ⟨'8', 'C'⟩, ⟨'2', 'D'⟩, ⟨'3', 'H'⟩]) =
      some ("straight",
        [(0, ⟨'K', 'C'⟩), (1, ⟨'J', 'D'⟩), (2, ⟨'T', 'H'⟩), (3, ⟨'9', 'S'⟩), (4, ⟨'8', 'C'⟩)]) := by
  decide

/-- C3 (failing input): `extract_n_of_a_kind` compares the first card of the
largest cluster with the integer `n` (always unequal), so Four of a Kind is
never detected; the hand `4C 4D 4H 4S 9C 9D 9H` falls through to
High Card. -/
theorem four_of_a_kind_not_detected :
    evaluate (tagHand [⟨'4', 'C'⟩, ⟨'4', 'D'⟩, ⟨'4', 'H'⟩, ⟨'4', 'S'⟩, ⟨'9', 'C'⟩, ⟨'9', 'D'⟩, ⟨'9', 'H'⟩]) =
      some ("high_card",
        [(4, ⟨'9', 'C'⟩), (5, ⟨'9', 'D'⟩), (6, ⟨'9', 'H'⟩), (0, ⟨'4', 'C'⟩), (1, ⟨'4', 'D'⟩)]) := by
  decide

/-- C4 (failing input): equal-sized clusters are ordered by the raw value
character (`key=(len(lst), item[0])`), and `'T' > 'A'` as characters, so
the cluster of Tens precedes the cluster of Aces. -/
theorem clusters_sorted_by_raw_character :
    group_by_same_value (arrange_by_value (tagHand [⟨'A', 'S'⟩, ⟨'A', 'H'⟩, ⟨'T', 'S'⟩, ⟨'T', 'H'⟩])) =
      [[(2, ⟨'T', 'S'⟩), (3, ⟨'T', 'H'⟩)], [(0, ⟨'A', 'S'⟩), (1, ⟨'A', 'H'⟩)]] := by
  decide

/-- C5 (failing input): `extract_flush` keeps only suit groups with *exactly*
5 cards (`len(lst) == 5`), so a hand with 6 cards of one suit is not
recognised as a flush and falls through to High Card. -/
theorem flush_rejects_six_of_a_suit :
    evaluate (tagHand [⟨'2', 'H'⟩, ⟨'4', 'H'⟩, ⟨'6', 'H'⟩, ⟨'8', 'H'⟩, ⟨'T', 'H'⟩, ⟨'Q', 'H'⟩, ⟨'3', 'C'⟩]) =
      some ("high_card",
        [(5, ⟨'Q', 'H'⟩), (4, ⟨'T', 'H'⟩), (3, ⟨'8', 'H'⟩), (2, ⟨'6', 'H'⟩), (1, ⟨'4', 'H'⟩)]) := by
  decide

/-- C6 (counterexample): the hand `2C 7D 9H TC QS JD KH` does *not* evaluate
to High Card — it contains the straight K,Q,J,T,9, which the code
detects. -/
theorem scenario4_not_high_card :
    (evaluate (tagHand [⟨'2', 'C'⟩, ⟨'7', 'D'⟩, ⟨'9', 'H'⟩, ⟨'T', 'C'⟩, ⟨'Q', 'S'⟩, ⟨'J', 'D'⟩, ⟨'K', 'H'⟩])).map
        Prod.fst ≠ some "high_card" := by
  decide

/-- C6 (amended): the hand `2C 7D 9H TC QS JD KH` evaluates to category
Straight, the selected cards being the representatives of the window
Q,K,J,T,9 in the scan string's order. -/
theorem scenario4_is_straight :
    evaluate (tagHand [⟨'2', 'C'⟩, ⟨'7', 'D'⟩, ⟨'9', 'H'⟩, ⟨'T', 'C'⟩, ⟨'Q', 'S'⟩, ⟨'J', 'D'⟩, ⟨'K', 'H'⟩]) =
      some ("straight",
        [(4, ⟨'Q', 'S'⟩), (6, ⟨'K', 'H'⟩), (5, ⟨'J', 'D'⟩), (3, ⟨'T', 'C'⟩), (2, ⟨'9', 'H'⟩)]) := by
  decide

/-- C8 (counterexample): a hand with fewer than 5 cards is *not* rejected —
no hand-size validation exists — and evaluation proceeds normally: the
3-card hand `AS KS QS` evaluates to High Card with just its 3 cards. -/
theorem short_hand_not_rejected :
    evaluate (tagHand [⟨'A', 'S'⟩, ⟨'K', 'S'⟩, ⟨'Q', 'S'⟩]) =
      some ("high_card", [(0, ⟨'A', 'S'⟩), (1, ⟨'K', 'S'⟩), (2, ⟨'Q', 'S'⟩)]) := by
  decide

/-- C8 (amended): the system defines no `InsufficientCards` error and
performs no minimum-size check; a hand of fewer than 5 cards flows through
the whole pipeline, `find_winners` accepting it as a winner. -/
theorem short_hand_accepted_by_find_winners :
    find_winners [[⟨'A', 'S'⟩, ⟨'K', 'S'⟩, ⟨'Q', 'S'⟩]] = some [0] := by
  decide

/-- C7: for every hand of at least 5 cards, evaluation returns some category
together with exactly 5 cards, each a card of the original hand (position-
tagged, so Python object identity is respected), no card selected twice and
no card invented. -/
theorem evaluate_returns_five_distinct_cards (h : List Card) (hlen : 5 ≤ h.length) :
    ∃ rank cards, evaluate (tagHand h) = some (rank, cards) ∧
      cards.length = 5 ∧ cards.Nodup ∧ ∀ x ∈ cards, x ∈ tagHand h := by
  have hnd : (tagHand h).Nodup := tagHand_nodup h
  have hlen2 : 5 ≤ (tagHand h).length := by
    rw [tagHand_length]
    exact hlen
  obtain ⟨rank, cs, heq, hp⟩ := evaluate_spec (tagHand h) hnd hlen2
  exact ⟨rank, cs, heq, hp.1, hp.2.1, hp.2.2⟩

/-- Witness for C7 at the 7-card hand of scenario 2 (a full house). -/
theorem evaluate_returns_five_distinct_cards_witness :
    ∃ rank cards,
      evaluate (tagHand [⟨'2', 'H'⟩, ⟨'2', 'D'⟩, ⟨'2', 'S'⟩, ⟨'3', 'H'⟩, ⟨'3', 'D'⟩, ⟨'9', 'C'⟩, ⟨'4', 'C'⟩]) =
        some (rank, cards) ∧
      cards.length = 5 ∧ cards.Nodup ∧
      ∀ x ∈ cards,
        x ∈ tagHand [⟨'2', 'H'⟩, ⟨'2', 'D'⟩, ⟨'2', 'S'⟩, ⟨'3', 'H'⟩, ⟨'3', 'D'⟩, ⟨'9', 'C'⟩, ⟨'4', 'C'⟩] :=
  evaluate_returns_five_distinct_cards
    [⟨'2', 'H'⟩, ⟨'2', 'D'⟩, ⟨'2', 'S'⟩, ⟨'3', 'H'⟩, ⟨'3', 'D'⟩, ⟨'9', 'C'⟩, ⟨'4', 'C'⟩] (by decide)

/-- C10: card construction inspects only the first two characters of the
code: a code of length ≥ 2 with a valid value and suit character is
accepted (extra characters ignored, the reported code being those two
characters); a 2-character code with an invalid character fails with the
domain-validation error (value checked first); a code shorter than 2
characters fails with the index error instead. -/
theorem mkCard_first_two_characters :
    (∀ (c0 c1 : Char) (rest : List Char), c0 ∈ VALUES → c1 ∈ SUITS →
        mkCard (c0 :: c1 :: rest) = .ok ⟨c0, c1⟩ ∧ card_repr ⟨c0, c1⟩ = [c0, c1]) ∧
    (∀ c0 c1 : Char, c0 ∉ VALUES → mkCard [c0, c1] = .error (.invalidValue c0)) ∧
    (∀ c0 c1 : Char, c0 ∈ VALUES → c1 ∉ SUITS → mkCard [c0, c1] = .error (.invalidSuit c1)) ∧
    (∀ code : List Char, code.length < 2 → mkCard code = .error .indexError) := by
  refine ⟨?_, ?_, ?_, ?_⟩
  · intro c0 c1 rest h0 h1
    exact ⟨by simp [mkCard, h0, h1], rfl⟩
  · intro c0 c1 h0
    simp [mkCard, h0]
  · intro c0 c1 h0 h1
    simp [mkCard, h0, h1]
  · intro code h
    match code with
    | [] => rfl
    | [c] => rfl
    | c0 :: c1 :: rest => simp at h; omega

/-- Witness for C10 at concrete codes: `ASX` parses as the Ace of Spades,
`ZS` and `AZ` fail the domain validation, `A` fails with the index error. -/
theorem mkCard_first_two_characters_witness :
    (mkCard ['A', 'S', 'X'] = .ok ⟨'A', 'S'⟩ ∧ card_repr ⟨'A', 'S'⟩ = ['A', 'S']) ∧
    mkCard ['Z', 'S'] = .error (.invalidValue 'Z') ∧
    mkCard ['A', 'Z'] = .error (.invalidSuit 'Z') ∧
    mkCard ['A'] = .error .indexError :=
  ⟨mkCard_first_two_characters.1 'A' 'S' ['X'] (by decide) (by decide),
   mkCard_first_two_characters.2.1 'Z' 'S' (by decide),
   mkCard_first_two_characters.2.2.1 'A' 'Z' (by decide) (by decide),
   mkCard_first_two_characters.2.2.2 ['A'] (by decide)⟩

end FindWinners
